import Mathlib

set_option maxHeartbeats 1000000

/-!
Verification development for the siril-scripts repository.

Part 1 embeds the processing pipeline of `Processinator.py`: the step-tag
tracker driving artifact file names (`_current_file_name`), the thirteen
step methods as event-trace transformers (each host (Siril) command and
each persistence operation is recorded as an event), and `runner` with its
try/finally control re-enablement.  A step that raises an unhandled
exception is modelled as raising on entry (contributing no effects); the
run is then aborted exactly as the `try` block does.

Part 2 embeds the tone-curve engine of `contrast.py` /
`tests/contrast.py` over the reals (idealizing float32 arithmetic), and
the three-segment piecewise mapping of `tests/test-curves.py` over the
rationals.
-/

/-- Events recorded while a run executes: persistence operations
(`save` = the Siril save command, `savetif` = the Siril savetif command,
`imwrite` = cv2.imwrite) plus image loads and other host commands. -/
inductive Ev where
  | save : String → Ev
  | savetif : String → Ev
  | imwrite : String → Ev
  | load : String → Ev
  | cmd : String → Ev
  deriving DecidableEq

/-- The persistence operations among a trace of events, in order, by the
file-name argument each was given. -/
def persisted (evs : List Ev) : List String :=
  evs.filterMap (fun e =>
    match e with
    | .save n => some n
    | .savetif n => some n
    | .imwrite n => some n
    | _ => none)

/-- Mutable state of a `Processinator` instance during a run:
`current_file`, the step-tag list `self.steps`, the
`save_each_step` setting, the recorded event trace, and the enabled
state of the Quit / Process buttons. -/
structure PState where
  currentFile : String
  steps : List String
  saveEachStep : Bool
  events : List Ev
  closeEnabled : Bool
  processEnabled : Bool
  deriving DecidableEq

def emit (e : Ev) (st : PState) : PState :=
  { st with events := st.events ++ [e] }

/-- Split a path at the last slash: returns (directory including
the trailing slash, file name); mirrors `Path.parent` / `os.path.split`
composed with the later re-join. -/
def splitLastAux (c : Char) : List Char → Option (List Char × List Char)
  | [] => none
  | x :: xs =>
    match splitLastAux c xs with
    | some (pre, post) => some (x :: pre, post)
    | none => if x = c then some ([], xs) else none

def splitDir (file : String) : String × String :=
  match splitLastAux '/' file.data with
  | some (pre, post) => (String.mk (pre ++ ['/']), String.mk post)
  | none => ("", file)

/-- Split a file name into `pathlib` stem and suffix (the suffix keeps
its leading dot; a name whose only dot is the leading character has an
empty suffix, as in `pathlib`). -/
def splitExtension (base : String) : String × String :=
  match splitLastAux '.' base.data with
  | some (pre, post) =>
    if pre = [] then (base, "") else (String.mk pre, String.mk ('.' :: post))
  | none => (base, "")

/-- Embeds `Processinator._current_file_name`: directory of the base file, then
the stem joined by an underscore to the underscore-joined step tags, then
either an explicit override suffix or the suffix of the base file. -/
def currentName (steps : List String) (file : String) (suffix : Option String) : String :=
  let d := splitDir file
  let se := splitExtension d.2
  d.1 ++ se.1 ++ "_" ++ String.intercalate "_" steps ++ suffix.getD se.2

/-- The name `starmask_<filename>` placed next to the current file, as
computed by `star_recombination` via `os.path.split` / `os.path.join`. -/
def starmaskName (file : String) : String :=
  let d := splitDir file
  d.1 ++ "starmask_" ++ d.2

/-- The reset `self.steps = []` performed at the start of `runner`. -/
def resetSteps (st : PState) : PState :=
  { st with steps := [] }

def appendTag (tag : String) (st : PState) : PState :=
  { st with steps := st.steps ++ [tag] }

/-- Embeds `Processinator._save_state`: saves under the current derived name. -/
def saveState (st : PState) : PState :=
  emit (.save (currentName st.steps st.currentFile none)) st

/-- The `self.steps.append(tag)` / `if self.save_each_step: self._save_state()`
tail shared by most step methods. -/
def tagAndSave (tag : String) (st : PState) : PState :=
  let st := appendTag tag st
  if st.saveEachStep then saveState st else st

def unclip (st : PState) : PState :=
  tagAndSave "UC" (emit (.cmd "unclipstars") st)

def crop (_pct : ℚ) (st : PState) : PState :=
  tagAndSave "CR" (emit (.cmd "crop") st)

def backgroundExtraction (_samples : ℕ) (_tolerance _smooth : ℚ) (st : PState) : PState :=
  tagAndSave "BE" (emit (.cmd "subsky") st)

def plateSolve (st : PState) : PState :=
  tagAndSave "PS" (emit (.cmd "platesolve") st)

def colorCalibration (st : PState) : PState :=
  tagAndSave "SPCC" (emit (.cmd "spcc") st)

def starSeparation (st : PState) : PState :=
  let st := emit (.cmd "starnet") st
  let st := emit (.save "starless_result") st
  let st := emit (.load "starless_result") st
  tagAndSave "StarSep" st

def stretch (_shadowsClip _targetBg : ℚ) (st : PState) : PState :=
  tagAndSave "ST" (emit (.cmd "autostretch") st)

/-- Embeds `Processinator.star_recombination`: the starless proxy is re-saved
from the current image only when the "StarSep" tag is present; then the
star mask is loaded, stretched (`modasinh`), saved, and recombined by
pixel math. -/
def starRecombination (_strength : ℚ) (st : PState) : PState :=
  let st := if "StarSep" ∈ st.steps then emit (.save "starless_result") st else st
  let st := emit (.load (starmaskName st.currentFile)) st
  let st := emit (.cmd "modasinh") st
  let st := emit (.save "starmask_result") st
  let st := emit (.cmd "pm") st
  tagAndSave "StarComb" st

def removeGreen (st : PState) : PState :=
  tagAndSave "DG" (emit (.cmd "rmgreen") st)

/-- Embeds `Processinator.curves`: materializes the current image as a TIFF
under the current name with an empty override suffix, applies the spline
tone curve pixel-wise (the pixel-level mathematics is embedded in part 2;
it does not affect the trace), appends the "Curves" tag, writes the
result with the ".tif" override suffix, and reloads it.  Note: no
`save_each_step` save is performed by this step. -/
def curves (st : PState) : PState :=
  let st := emit (.savetif (currentName st.steps st.currentFile (some ""))) st
  let st := appendTag "Curves" st
  let st := emit (.imwrite (currentName st.steps st.currentFile (some ".tif"))) st
  emit (.load (currentName st.steps st.currentFile (some ".tif"))) st

def adjustments (st : PState) : PState :=
  tagAndSave "Adj" (emit (.cmd "satu") st)

def denoise (st : PState) : PState :=
  let st := appendTag "DN" st
  let st := emit (.cmd "pyscript CosmicClarity_Denoise.py") st
  if st.saveEachStep then saveState st else st

def sharpen (st : PState) : PState :=
  let st := appendTag "SH" st
  let st := emit (.cmd "pyscript CosmicClarity_Sharpen.py") st
  if st.saveEachStep then saveState st else st

/-- Embeds `Processinator.save_result`: one unconditional final save. -/
def saveResult (st : PState) : PState :=
  saveState st

/-- A configured pipeline step: its name (the key of `step_vars`) and its
body with the parameters `runner` passes. -/
structure StepDef where
  name : String
  body : PState → PState

/-- The ordered step sequence of `Processinator.runner`, with the
argument values used there. -/
def stepList : List StepDef :=
  [⟨"unclip", unclip⟩,
   ⟨"crop", crop 0.01⟩,
   ⟨"background_extraction", backgroundExtraction 20 2 0.5⟩,
   ⟨"plate_solve", plateSolve⟩,
   ⟨"color_calibration", colorCalibration⟩,
   ⟨"star_separation", starSeparation⟩,
   ⟨"stretch", stretch (-2.8) 0.2⟩,
   ⟨"star_recombination", starRecombination 8.5⟩,
   ⟨"remove_green", removeGreen⟩,
   ⟨"curves", curves⟩,
   ⟨"adjustments", adjustments⟩,
   ⟨"denoise", denoise⟩,
   ⟨"sharpen", sharpen⟩]

/-- Execute the enabled steps in order.  `failing` is the failure oracle:
a failing enabled step raises, aborting the remainder of the `try` body;
the Boolean result records whether the body ran to completion. -/
def runSteps (enabled failing : String → Bool) : List StepDef → PState → PState × Bool
  | [], st => (st, true)
  | d :: rest, st =>
    if enabled d.name then
      if failing d.name then (st, false)
      else runSteps enabled failing rest (d.body st)
    else runSteps enabled failing rest st

/-- Sequential application of the enabled step bodies with no failure:
the reference behavior the abort case is compared against. -/
def applyAll (enabled : String → Bool) : List StepDef → PState → PState
  | [], st => st
  | d :: rest, st => applyAll enabled rest (if enabled d.name then d.body st else st)

/-- The state set up at the top of the try block of `runner`: both buttons
disabled, the step list reset, the save-each-step option read. -/
def runnerInit (saveEach : Bool) (prev : PState) : PState :=
  { resetSteps prev with
      closeEnabled := false
      processEnabled := false
      saveEachStep := saveEach }

/-- The `finally` block: re-enable both buttons. -/
def finallyBlock (st : PState) : PState :=
  { st with closeEnabled := true, processEnabled := true }

/-- Embeds `Processinator.runner`: try (disable buttons; reset steps; run the
enabled steps in order; final save) finally (re-enable buttons).  On an
unhandled step failure the rest of the try body, including the final
save, is skipped; the finally block runs on every exit path. -/
def runner (enabled failing : String → Bool) (saveEach : Bool) (prev : PState) : PState :=
  let r := runSteps enabled failing stepList (runnerInit saveEach prev)
  finallyBlock (if r.2 then saveResult r.1 else r.1)

/-- A base-path example state: current file `/a/b/img.fit`, no tags yet. -/
def basePrev : PState := ⟨"/a/b/img.fit", [], true, [], true, true⟩

/-- A state reached mid-run after a stretch step, with star separation
never having executed. -/
def stAfterStretch : PState := ⟨"/a/b/img.fit", ["ST"], true, [], true, true⟩

/-- Enable exactly the unclip, curves and adjustments steps. -/
def enabledUCA : String → Bool :=
  fun n => n == "unclip" || n == "curves" || n == "adjustments"

def enabledAllSteps : String → Bool := fun _ => true

def noFailure : String → Bool := fun _ => false

/-- Failure oracle making exactly the stretch step raise. -/
def failAtStretch : String → Bool := fun n => n == "stretch"

/-- The steps of `stepList` strictly before the stretch step. -/
def stepsBeforeStretch : List StepDef :=
  [⟨"unclip", unclip⟩,
   ⟨"crop", crop 0.01⟩,
   ⟨"background_extraction", backgroundExtraction 20 2 0.5⟩,
   ⟨"plate_solve", plateSolve⟩,
   ⟨"color_calibration", colorCalibration⟩,
   ⟨"star_separation", starSeparation⟩]

/-- The steps of `stepList` strictly after the stretch step. -/
def stepsAfterStretch : List StepDef :=
  [⟨"star_recombination", starRecombination 8.5⟩,
   ⟨"remove_green", removeGreen⟩,
   ⟨"curves", curves⟩,
   ⟨"adjustments", adjustments⟩,
   ⟨"denoise", denoise⟩,
   ⟨"sharpen", sharpen⟩]

theorem runSteps_ok (enabled failing : String → Bool) :
    ∀ (l : List StepDef) (st : PState),
      (∀ d ∈ l, enabled d.name = true → failing d.name = false) →
      runSteps enabled failing l st = (applyAll enabled l st, true)
  | [], _, _ => rfl
  | d :: rest, st, h => by
    have hrest : ∀ x ∈ rest, enabled x.name = true → failing x.name = false :=
      fun x hx => h x (List.mem_cons_of_mem _ hx)
    by_cases he : enabled d.name
    · have hf : failing d.name = false := h d (List.mem_cons_self _ _) he
      simp [runSteps, applyAll, he, hf, runSteps_ok enabled failing rest (d.body st) hrest]
    · simp [runSteps, applyAll, he, runSteps_ok enabled failing rest st hrest]

theorem runSteps_abort (enabled failing : String → Bool) (d : StepDef)
    (he : enabled d.name = true) (hf : failing d.name = true) :
    ∀ (l1 : List StepDef) (l2 : List StepDef) (st : PState),
      (∀ x ∈ l1, enabled x.name = true → failing x.name = false) →
      runSteps enabled failing (l1 ++ d :: l2) st = (applyAll enabled l1 st, false)
  | [], l2, st, _ => by simp [runSteps, applyAll, he, hf]
  | x :: rest, l2, st, h => by
    have hrest : ∀ y ∈ rest, enabled y.name = true → failing y.name = false :=
      fun y hy => h y (List.mem_cons_of_mem _ hy)
    by_cases hx : enabled x.name
    · have hfx : failing x.name = false := h x (List.mem_cons_self _ _) hx
      simp [runSteps, applyAll, hx, hfx,
        runSteps_abort enabled failing d he hf rest l2 (x.body st) hrest]
    · simp [runSteps, applyAll, hx,
        runSteps_abort enabled failing d he hf rest l2 st hrest]

/-- Claim C1 (counterexample): running `star_recombination` in a state
where star separation never executed does NOT re-save the "starless"
proxy from the current image — no save of `starless_result` is issued —
although the step does complete and append its tag. -/
theorem c1_counterexample :
    Ev.save "starless_result" ∉ (starRecombination 8.5 stAfterStretch).events ∧
    (starRecombination 8.5 stAfterStretch).steps = ["ST", "StarComb"] := by
  decide

/-- Claim C1 (amended): `star_recombination` always completes, appending
"StarComb"; the re-save of the "starless" proxy from the current image is
issued exactly when the "StarSep" tag IS present (not, as claimed, when
it is absent).  Without "StarSep" the step proceeds directly to loading
the star mask and recombining. -/
theorem c1_star_recombination_resave_condition (st : PState) :
    ("StarSep" ∉ st.steps →
      (starRecombination 8.5 st).events = st.events ++
        ([.load (starmaskName st.currentFile), .cmd "modasinh",
          .save "starmask_result", .cmd "pm"] ++
         (if st.saveEachStep then
            [.save (currentName (st.steps ++ ["StarComb"]) st.currentFile none)]
          else []))) ∧
    ("StarSep" ∈ st.steps →
      (starRecombination 8.5 st).events = st.events ++
        ([.save "starless_result", .load (starmaskName st.currentFile), .cmd "modasinh",
          .save "starmask_result", .cmd "pm"] ++
         (if st.saveEachStep then
            [.save (currentName (st.steps ++ ["StarComb"]) st.currentFile none)]
          else []))) ∧
    (starRecombination 8.5 st).steps = st.steps ++ ["StarComb"] := by
  have hsteps : (starRecombination 8.5 st).steps = st.steps ++ ["StarComb"] := by
    by_cases hs : "StarSep" ∈ st.steps <;> by_cases hse : st.saveEachStep <;>
      simp [starRecombination, tagAndSave, appendTag, saveState, emit, hs, hse]
  refine ⟨fun h => ?_, fun h => ?_, hsteps⟩
  · by_cases hse : st.saveEachStep <;>
      simp [starRecombination, tagAndSave, appendTag, saveState, emit, h, hse]
  · by_cases hse : st.saveEachStep <;>
      simp [starRecombination, tagAndSave, appendTag, saveState, emit, h, hse]

theorem c1_witness :
    "StarSep" ∉ stAfterStretch.steps ∧
    (starRecombination 8.5 stAfterStretch).events = stAfterStretch.events ++
      ([.load (starmaskName stAfterStretch.currentFile), .cmd "modasinh",
        .save "starmask_result", .cmd "pm"] ++
       (if stAfterStretch.saveEachStep then
          [.save (currentName (stAfterStretch.steps ++ ["StarComb"])
            stAfterStretch.currentFile none)]
        else [])) :=
  ⟨by decide, (c1_star_recombination_resave_condition stAfterStretch).1 (by decide)⟩

/-- Claim C2 (counterexample): the run with exactly unclip, curves and
adjustments enabled and save-every-step on does NOT persist exactly the
three artifacts `img_UC.fit`, `img_UC_Curves.fit`, `img_UC_Curves_Adj.fit`. -/
theorem c2_counterexample :
    persisted (runner enabledUCA noFailure true basePrev).events ≠
      ["/a/b/img_UC.fit", "/a/b/img_UC_Curves.fit", "/a/b/img_UC_Curves_Adj.fit"] := by
  decide

/-- Claim C2 (amended): that run issues five persistence operations, in
order: the unclip per-step save `img_UC.fit`; the pre-transform TIFF
proxy `img_UC` (empty override suffix) written by the curves step; the
curves result `img_UC_Curves.tif`; the adjustments per-step save
`img_UC_Curves_Adj.fit`; and the unconditional final save of the same
name.  In either save mode the final save after the last step happens
and is the last persistence operation. -/
theorem c2_artifact_trace :
    persisted (runner enabledUCA noFailure true basePrev).events =
      ["/a/b/img_UC.fit", "/a/b/img_UC", "/a/b/img_UC_Curves.tif",
       "/a/b/img_UC_Curves_Adj.fit", "/a/b/img_UC_Curves_Adj.fit"] ∧
    ∀ se : Bool,
      (persisted (runner enabledUCA noFailure se basePrev).events).getLast? =
        some "/a/b/img_UC_Curves_Adj.fit" :=
  ⟨by decide, by decide⟩

/-- Claim C6: every run ends with the Quit and Process buttons
re-enabled, whatever the failure oracle says; a run whose enabled steps
all succeed ends in the full step sequence followed by the mandatory
final save; and a run whose first failing enabled step is `d` performs
exactly the enabled steps before `d` — the remaining steps and the final
save are skipped — with the finally-block cleanup still applied. -/
theorem c6_cleanup_on_every_exit (enabled failing : String → Bool)
    (saveEach : Bool) (prev : PState) :
    ((runner enabled failing saveEach prev).closeEnabled = true ∧
     (runner enabled failing saveEach prev).processEnabled = true) ∧
    ((∀ d ∈ stepList, enabled d.name = true → failing d.name = false) →
      runner enabled failing saveEach prev =
        finallyBlock (saveResult (applyAll enabled stepList (runnerInit saveEach prev)))) ∧
    (∀ l1 d l2, stepList = l1 ++ d :: l2 → enabled d.name = true →
      failing d.name = true →
      (∀ x ∈ l1, enabled x.name = true → failing x.name = false) →
      runner enabled failing saveEach prev =
        finallyBlock (applyAll enabled l1 (runnerInit saveEach prev))) := by
  refine ⟨⟨rfl, rfl⟩, fun h => ?_, fun l1 d l2 hsplit he hf h1 => ?_⟩
  · simp [runner, runSteps_ok enabled failing stepList (runnerInit saveEach prev) h]
  · simp [runner, hsplit,
      runSteps_abort enabled failing d he hf l1 l2 (runnerInit saveEach prev) h1]

theorem c6_witness :
    (runner enabledAllSteps failAtStretch true basePrev).closeEnabled = true ∧
    (runner enabledAllSteps failAtStretch true basePrev).processEnabled = true ∧
    runner enabledAllSteps failAtStretch true basePrev =
      finallyBlock (applyAll enabledAllSteps stepsBeforeStretch (runnerInit true basePrev)) :=
  ⟨(c6_cleanup_on_every_exit enabledAllSteps failAtStretch true basePrev).1.1,
   (c6_cleanup_on_every_exit enabledAllSteps failAtStretch true basePrev).1.2,
   (c6_cleanup_on_every_exit enabledAllSteps failAtStretch true basePrev).2.2
     stepsBeforeStretch ⟨"stretch", stretch (-2.8) 0.2⟩ stepsAfterStretch
     rfl rfl (by decide) (by decide)⟩

/-- Claim C7: with tags UC then BE applied, the derived artifact name for
`/a/b/img.fit` is `/a/b/img_UC_BE.fit`, and the reset performed at the
start of a run empties the tag sequence. -/
theorem c7_naming_and_reset :
    currentName ["UC", "BE"] "/a/b/img.fit" none = "/a/b/img_UC_BE.fit" ∧
    ∀ st : PState, (resetSteps st).steps = [] :=
  ⟨by decide, fun _ => rfl⟩

/-- Claim C9: with no tags applied, the derived artifact name keeps a
bare trailing underscore before the extension (`/a/b/img_.fit`, not
`/a/b/img.fit`), and the curves step, entered with an empty tag list,
writes its pre-transform TIFF proxy under that form with an empty
override suffix (`/a/b/img_`). -/
theorem c9_empty_tags_trailing_underscore :
    currentName [] "/a/b/img.fit" none = "/a/b/img_.fit" ∧
    ∀ st : PState, st.steps = [] → st.currentFile = "/a/b/img.fit" →
      (curves st).events = st.events ++
        [.savetif "/a/b/img_", .imwrite "/a/b/img_Curves.tif",
         .load "/a/b/img_Curves.tif"] := by
  refine ⟨by decide, fun st h1 h2 => ?_⟩
  have hn1 : currentName st.steps st.currentFile (some "") = "/a/b/img_" := by
    rw [h1, h2]; decide
  have hn2 : currentName (st.steps ++ ["Curves"]) st.currentFile (some ".tif") =
      "/a/b/img_Curves.tif" := by
    rw [h1, h2]; decide
  simp [curves, emit, appendTag, hn1, hn2]

theorem c9_witness :
    basePrev.steps = [] ∧ basePrev.currentFile = "/a/b/img.fit" ∧
    (curves basePrev).events = basePrev.events ++
      [.savetif "/a/b/img_", .imwrite "/a/b/img_Curves.tif",
       .load "/a/b/img_Curves.tif"] :=
  ⟨rfl, rfl, c9_empty_tags_trailing_underscore.2 basePrev rfl rfl⟩

noncomputable section

/-- Sample dtypes of the images the contrast utility reads. -/
inductive Dtype where
  | uint8
  | uint16
  | float

/-- An in-memory image as returned by cv2.imread: its sample dtype,
whether the numpy array is 3-dimensional, its dimensions, and its
samples flattened in row-major order (float32 arithmetic idealized over
the reals). -/
structure ImageBuffer where
  dtype : Dtype
  is3d : Bool
  height : ℕ
  width : ℕ
  channels : ℕ
  data : List ℝ

def ImageBuffer.shape (b : ImageBuffer) : List ℕ :=
  if b.is3d then [b.height, b.width, b.channels] else [b.height, b.width]

/-- np.min over a nonempty array (the empty case is junk, never used). -/
def listMin : List ℝ → ℝ
  | [] => 0
  | x :: xs => xs.foldl min x

/-- np.max over a nonempty array (the empty case is junk, never used). -/
def listMax : List ℝ → ℝ
  | [] => 0
  | x :: xs => xs.foldl max x

/-- np.clip. -/
def clip (lo hi v : ℝ) : ℝ := min hi (max lo v)

/-- The final `astype` back to the original dtype: the code clips the
unsigned-integer dtypes to their representable range and the numpy
float-to-unsigned cast truncates; the float dtype keeps the value. -/
def castBack : Dtype → ℝ → ℝ
  | .uint8, v => ((⌊clip 0 255 v⌋ : ℤ) : ℝ)
  | .uint16, v => ((⌊clip 0 65535 v⌋ : ℤ) : ℝ)
  | .float, v => v

/-- A real sample value exactly representable in a dtype, so that the
final cast returns it unchanged. -/
def reprDtype : Dtype → ℝ → Prop
  | .uint8, v => ∃ n : ℕ, n ≤ 255 ∧ v = n
  | .uint16, v => ∃ n : ℕ, n ≤ 65535 ∧ v = n
  | .float, _ => True

/-- The curve methods of `adjust_contrast`, with their parameters. -/
inductive CurveMethod where
  | linear (alpha beta : ℝ)
  | sigmoid (gain cutoff : ℝ)
  | gamma (g : ℝ)
  | equalize
  | cubicSpline (controlPoints : List (ℝ × ℝ))

/-- The linear branch: normalize to [0,1] (skipped for a degenerate
range), map n to alpha*(n-0.5)+0.5+beta, clip to [0,1], rescale. -/
def linearBranch (alpha beta : ℝ) (data : List ℝ) : List ℝ :=
  let mn := listMin data
  let mx := listMax data
  let normalized := if mx > mn then data.map (fun v => (v - mn) / (mx - mn)) else data
  let adjusted := normalized.map (fun n => alpha * (n - 0.5) + 0.5 + beta)
  let clipped := adjusted.map (clip 0 1)
  clipped.map (fun a => a * (mx - mn) + mn)

/-- The sigmoid branch: map n to 1/(1+exp(-gain*(n-cutoff))), no clip. -/
def sigmoidBranch (gain cutoff : ℝ) (data : List ℝ) : List ℝ :=
  let mn := listMin data
  let mx := listMax data
  let normalized := if mx > mn then data.map (fun v => (v - mn) / (mx - mn)) else data
  let adjusted := normalized.map (fun n => 1 / (1 + Real.exp (-gain * (n - cutoff))))
  adjusted.map (fun a => a * (mx - mn) + mn)

/-- The gamma branch: map n to n ** g via np.power, no clip. -/
def gammaBranch (g : ℝ) (data : List ℝ) : List ℝ :=
  let mn := listMin data
  let mx := listMax data
  let normalized := if mx > mn then data.map (fun v => (v - mn) / (mx - mn)) else data
  let adjusted := normalized.map (fun n => Real.rpow n g)
  adjusted.map (fun a => a * (mx - mn) + mn)

/-- The cubic-spline branch: evaluate the interpolator at each
normalized sample, clip to [0,1], rescale. -/
def cubicSplineBranch (spline : List (ℝ × ℝ) → ℝ → ℝ) (pts : List (ℝ × ℝ))
    (data : List ℝ) : List ℝ :=
  let mn := listMin data
  let mx := listMax data
  let normalized := if mx > mn then data.map (fun v => (v - mn) / (mx - mn)) else data
  let adjusted := normalized.map (spline pts)
  let clipped := adjusted.map (clip 0 1)
  clipped.map (fun a => a * (mx - mn) + mn)

/-- cv2.normalize(img, None, 0, 255, NORM_MINMAX) followed by
astype(np.uint8): min-max scale into [0,255], rounded.  On a constant
image the OpenCV scale factor degenerates (a division by zero); the value
is immaterial to every claim and is modelled as 0. -/
def norm8 (mn mx v : ℝ) : ℕ :=
  if mx > mn then (⌊(v - mn) * 255 / (mx - mn) + 1 / 2⌋).toNat else 0

/-- cv2.equalizeHist: the cumulative-histogram lookup mapping each 8-bit
level v to cdf(v)*255/n. -/
def equalizeHist (l : List ℕ) : List ℕ :=
  l.map (fun v => l.countP (fun w => decide (w ≤ v)) * 255 / l.length)

/-- The flattened samples of a 3-channel image grouped into pixels, as
OpenCV views a row-major H x W x 3 array. -/
def chunks3 : List ℕ → List (List ℕ)
  | [] => []
  | [a] => [[a]]
  | [a, b] => [[a, b]]
  | a :: b :: c :: rest => [a, b, c] :: chunks3 rest

def natClamp255 (x : ℝ) : ℕ := (⌊clip 0 255 x + 1 / 2⌋).toNat

/-- cv2.cvtColor COLOR_BGR2YCrCb on one 8-bit pixel (OpenCV coefficient
values, rounded); chunks that are not 3-channel pixels are untouched. -/
def bgr2ycrcb : List ℕ → List ℕ
  | [b, g, r] =>
    let y : ℝ := 0.299 * (r : ℝ) + 0.587 * (g : ℝ) + 0.114 * (b : ℝ)
    [natClamp255 y, natClamp255 (((r : ℝ) - y) * 0.713 + 128),
     natClamp255 (((b : ℝ) - y) * 0.564 + 128)]
  | l => l

/-- cv2.cvtColor COLOR_YCrCb2BGR on one pixel; other chunks untouched. -/
def ycrcb2bgr : List ℕ → List ℕ
  | [y, cr, cb] =>
    [natClamp255 ((y : ℝ) + 1.773 * ((cb : ℝ) - 128)),
     natClamp255 ((y : ℝ) - 0.714 * ((cr : ℝ) - 128) - 0.344 * ((cb : ℝ) - 128)),
     natClamp255 ((y : ℝ) + 1.403 * ((cr : ℝ) - 128))]
  | l => l

/-- The grayscale equalize path (2-d image or a single channel):
8-bit min-max normalize, histogram-equalize, rescale into the original
value range. -/
def equalizeGray (data : List ℝ) : List ℝ :=
  let mn := listMin data
  let mx := listMax data
  let bytes := data.map (norm8 mn mx)
  (equalizeHist bytes).map (fun (n : ℕ) => (n : ℝ) / 255 * (mx - mn) + mn)

/-- The color equalize path: convert each pixel to YCrCb, equalize the
Y channel across the whole image, convert back, rescale. -/
def equalizeColor (data : List ℝ) : List ℝ :=
  let mn := listMin data
  let mx := listMax data
  let bytes := data.map (norm8 mn mx)
  let ycrcb := (chunks3 bytes).map bgr2ycrcb
  let eqY := equalizeHist (ycrcb.map (fun p => p.headD 0))
  let replaced := List.zipWith (fun yv p => yv :: p.tail) eqY ycrcb
  ((replaced.map ycrcb2bgr).flatten).map (fun (n : ℕ) => (n : ℝ) / 255 * (mx - mn) + mn)

/-- The per-method adjusted samples of `adjust_contrast`, before the
final cast back to the original dtype.  The scipy CubicSpline
interpolator is an external collaborator and is passed in as `spline`;
every claim proved below holds for an arbitrary interpolator. -/
def adjustedOf (spline : List (ℝ × ℝ) → ℝ → ℝ) (img : ImageBuffer) :
    CurveMethod → List ℝ
  | .linear a b => linearBranch a b img.data
  | .sigmoid gain cutoff => sigmoidBranch gain cutoff img.data
  | .gamma g => gammaBranch g img.data
  | .equalize =>
    if img.is3d = false ∨ img.channels = 1 then equalizeGray img.data
    else equalizeColor img.data
  | .cubicSpline pts => cubicSplineBranch spline pts img.data

/-- Embeds `adjust_contrast`: the adjusted samples cast back to the original
dtype, in the original layout. -/
def adjustContrast (spline : List (ℝ × ℝ) → ℝ → ℝ) (img : ImageBuffer)
    (m : CurveMethod) : ImageBuffer :=
  { img with data := (adjustedOf spline img m).map (castBack img.dtype) }

end

/-- MAX_VALUE of `tests/test-curves.py`. -/
def MAX_VALUE : ℚ := 255

/-- The three-segment mapping `pixelVal` of `tests/test-curves.py`.  The
source performs its divisions unguarded; dividing numpy integer scalars
by zero yields nan/inf with a runtime warning rather than raising, so
the function is total (rational division by zero is 0 here, standing in
for that junk value). -/
def pixelVal (pix r1 s1 r2 s2 : ℚ) : ℚ :=
  if 0 ≤ pix ∧ pix ≤ r1 then s1 / r1 * pix
  else if r1 < pix ∧ pix ≤ r2 then (s2 - s1) / (r2 - r1) * (pix - r1) + s1
  else (MAX_VALUE - s2) / (MAX_VALUE - r2) * (pix - r2) + s2

/-- The whole-image vectorized application `pixelVal_vec(img, ...)`:
the mapping is applied to every pixel with no prior validation. -/
def contrastStretched (img : List ℚ) (r1 s1 r2 s2 : ℚ) : List ℚ :=
  img.map (fun p => pixelVal p r1 s1 r2 s2)

theorem map_eq_self_of {α : Type} {l : List α} {f : α → α} (h : ∀ x ∈ l, f x = x) :
    l.map f = l := by
  induction l with
  | nil => rfl
  | cons x xs ih =>
    simp only [List.map_cons, h x (List.mem_cons_self _ _), List.cons.injEq, true_and]
    exact ih fun y hy => h y (List.mem_cons_of_mem _ hy)

theorem foldl_min_le_init (l : List ℝ) (a : ℝ) : l.foldl min a ≤ a := by
  induction l generalizing a with
  | nil => simp
  | cons x xs ih => exact le_trans (ih (min a x)) (min_le_left a x)

theorem foldl_min_le_mem (l : List ℝ) (a : ℝ) {x : ℝ} (hx : x ∈ l) :
    l.foldl min a ≤ x := by
  induction l generalizing a with
  | nil => cases hx
  | cons y ys ih =>
    rcases List.mem_cons.mp hx with rfl | hmem
    · exact le_trans (foldl_min_le_init ys (min a x)) (min_le_right a x)
    · exact ih (min a y) hmem

theorem listMin_le {l : List ℝ} {x : ℝ} (hx : x ∈ l) : listMin l ≤ x := by
  cases l with
  | nil => cases hx
  | cons y ys =>
    rcases List.mem_cons.mp hx with rfl | hmem
    · exact foldl_min_le_init ys x
    · exact foldl_min_le_mem ys y hmem

theorem le_foldl_max_init (l : List ℝ) (a : ℝ) : a ≤ l.foldl max a := by
  induction l generalizing a with
  | nil => simp
  | cons x xs ih => exact le_trans (le_max_left a x) (ih (max a x))

theorem le_foldl_max_mem (l : List ℝ) (a : ℝ) {x : ℝ} (hx : x ∈ l) :
    x ≤ l.foldl max a := by
  induction l generalizing a with
  | nil => cases hx
  | cons y ys ih =>
    rcases List.mem_cons.mp hx with rfl | hmem
    · exact le_trans (le_max_right a x) (le_foldl_max_init ys (max a x))
    · exact ih (max a y) hmem

theorem le_listMax {l : List ℝ} {x : ℝ} (hx : x ∈ l) : x ≤ listMax l := by
  cases l with
  | nil => cases hx
  | cons y ys =>
    rcases List.mem_cons.mp hx with rfl | hmem
    · exact le_foldl_max_init ys x
    · exact le_foldl_max_mem ys y hmem

theorem foldl_min_const (c : ℝ) :
    ∀ l : List ℝ, (∀ x ∈ l, x = c) → l.foldl min c = c
  | [], _ => rfl
  | x :: xs, h => by
    rw [List.foldl_cons, h x (List.mem_cons_self _ _), min_self]
    exact foldl_min_const c xs fun y hy => h y (List.mem_cons_of_mem _ hy)

theorem foldl_max_const (c : ℝ) :
    ∀ l : List ℝ, (∀ x ∈ l, x = c) → l.foldl max c = c
  | [], _ => rfl
  | x :: xs, h => by
    rw [List.foldl_cons, h x (List.mem_cons_self _ _), max_self]
    exact foldl_max_const c xs fun y hy => h y (List.mem_cons_of_mem _ hy)

theorem listMin_const {l : List ℝ} {c : ℝ} (hne : l ≠ []) (h : ∀ x ∈ l, x = c) :
    listMin l = c := by
  cases l with
  | nil => exact absurd rfl hne
  | cons x xs =>
    simp only [listMin]
    rw [h x (List.mem_cons_self _ _)]
    exact foldl_min_const c xs fun y hy => h y (List.mem_cons_of_mem _ hy)

theorem listMax_const {l : List ℝ} {c : ℝ} (hne : l ≠ []) (h : ∀ x ∈ l, x = c) :
    listMax l = c := by
  cases l with
  | nil => exact absurd rfl hne
  | cons x xs =>
    simp only [listMax]
    rw [h x (List.mem_cons_self _ _)]
    exact foldl_max_const c xs fun y hy => h y (List.mem_cons_of_mem _ hy)

theorem castBack_repr {d : Dtype} {v : ℝ} (h : reprDtype d v) : castBack d v = v := by
  cases d with
  | uint8 =>
    obtain ⟨n, hn, rfl⟩ := h
    have h255 : (n : ℝ) ≤ 255 := by exact_mod_cast hn
    have h0 : (0 : ℝ) ≤ (n : ℝ) := Nat.cast_nonneg n
    simp [castBack, clip, max_eq_right h0, min_eq_right h255, Int.floor_natCast]
  | uint16 =>
    obtain ⟨n, hn, rfl⟩ := h
    have hr : (n : ℝ) ≤ 65535 := by exact_mod_cast hn
    have h0 : (0 : ℝ) ≤ (n : ℝ) := Nat.cast_nonneg n
    simp [castBack, clip, max_eq_right h0, min_eq_right hr, Int.floor_natCast]
  | float => rfl

theorem castBack_rescale_const {d : Dtype} {c mn mx : ℝ} (hrepr : reprDtype d c)
    (hmn : mn = c) (hmx : mx = c) (a : ℝ) :
    castBack d (a * (mx - mn) + mn) = c := by
  rw [hmn, hmx, sub_self, mul_zero, zero_add, castBack_repr hrepr]

/-- Claim C4 (counterexample): the degenerate breakpoint choice
r2 = r1 = 50 is not rejected before per-pixel work; the mapping is
applied to the pixel value 100 and yields an ordinary result. -/
theorem c4_counterexample :
    contrastStretched [100] 50 0 50 200 = [8750 / 41] := by
  norm_num [contrastStretched, pixelVal, MAX_VALUE]

/-- Claim C4 (amended): `pixelVal` contains no configuration-time
validation and no division guards.  With r2 = r1 the middle segment is
unreachable — every pixel takes the first or third segment formula, so
the division by r2 - r1 never executes — while a choice with r1 = 0
reaches the unguarded division s1/r1 during per-pixel work for pixels
in [0, r1]. -/
theorem c4_pixelVal_unguarded (pix r1 s1 s2 : ℚ) :
    pixelVal pix r1 s1 r1 s2 =
      if 0 ≤ pix ∧ pix ≤ r1 then s1 / r1 * pix
      else (MAX_VALUE - s2) / (MAX_VALUE - r1) * (pix - r1) + s2 := by
  unfold pixelVal
  by_cases h1 : 0 ≤ pix ∧ pix ≤ r1
  · simp [h1]
  · have h2 : ¬(r1 < pix ∧ pix ≤ r1) := by
      rintro ⟨ha, hb⟩
      exact absurd hb (not_le.mpr ha)
    simp [h1, h2]

/-- Claim C5: a buffer whose samples are all the identical representable
value c is returned numerically unchanged by the linear, sigmoid, gamma
and cubic-spline methods: the degenerate range skips normalization and
the rescale by (max-min) collapses every mapped value back to c. -/
theorem c5_degenerate_noop (spline : List (ℝ × ℝ) → ℝ → ℝ) (b : ImageBuffer)
    (c : ℝ) (m : CurveMethod) (hne : b.data ≠ []) (hconst : ∀ x ∈ b.data, x = c)
    (hrepr : reprDtype b.dtype c) (hm : m ≠ CurveMethod.equalize) :
    adjustContrast spline b m = b := by
  have hmn := listMin_const hne hconst
  have hmx := listMax_const hne hconst
  have hnlt : ¬ listMax b.data > listMin b.data := by
    rw [hmn, hmx]
    exact lt_irrefl c
  have hdata : (adjustedOf spline b m).map (castBack b.dtype) = b.data := by
    cases m with
    | equalize => exact absurd rfl hm
    | linear a β =>
      simp only [adjustedOf, linearBranch, if_neg hnlt, List.map_map]
      refine map_eq_self_of fun x hx => ?_
      simp only [Function.comp_apply]
      rw [castBack_rescale_const hrepr hmn hmx]
      exact (hconst x hx).symm
    | sigmoid gain cutoff =>
      simp only [adjustedOf, sigmoidBranch, if_neg hnlt, List.map_map]
      refine map_eq_self_of fun x hx => ?_
      simp only [Function.comp_apply]
      rw [castBack_rescale_const hrepr hmn hmx]
      exact (hconst x hx).symm
    | gamma g =>
      simp only [adjustedOf, gammaBranch, if_neg hnlt, List.map_map]
      refine map_eq_self_of fun x hx => ?_
      simp only [Function.comp_apply]
      rw [castBack_rescale_const hrepr hmn hmx]
      exact (hconst x hx).symm
    | cubicSpline pts =>
      simp only [adjustedOf, cubicSplineBranch, if_neg hnlt, List.map_map]
      refine map_eq_self_of fun x hx => ?_
      simp only [Function.comp_apply]
      rw [castBack_rescale_const hrepr hmn hmx]
      exact (hconst x hx).symm
  simp only [adjustContrast, hdata]

/-- Claim C8: the linear method with alpha 1 and beta 0 returns the
buffer unchanged: on a non-degenerate range the mapping is the identity
on normalized values, the clip to [0,1] leaves them unchanged, the
rescale inverts the normalization exactly, and the final cast returns
every representable sample; a degenerate range collapses to the constant
case. -/
theorem c8_linear_identity (spline : List (ℝ × ℝ) → ℝ → ℝ) (b : ImageBuffer)
    (hne : b.data ≠ []) (hrepr : ∀ v ∈ b.data, reprDtype b.dtype v) :
    adjustContrast spline b (CurveMethod.linear 1 0) = b := by
  have hdata :
      (adjustedOf spline b (CurveMethod.linear 1 0)).map (castBack b.dtype) = b.data := by
    by_cases hlt : listMax b.data > listMin b.data
    · simp only [adjustedOf, linearBranch, if_pos hlt, List.map_map]
      refine map_eq_self_of fun x hx => ?_
      simp only [Function.comp_apply]
      have hd : (0 : ℝ) < listMax b.data - listMin b.data := sub_pos.mpr hlt
      have hid : 1 * ((x - listMin b.data) / (listMax b.data - listMin b.data) - 0.5)
          + 0.5 + 0 = (x - listMin b.data) / (listMax b.data - listMin b.data) := by
        ring
      rw [hid]
      have h0 : 0 ≤ (x - listMin b.data) / (listMax b.data - listMin b.data) :=
        div_nonneg (sub_nonneg.mpr (listMin_le hx)) hd.le
      have h1 : (x - listMin b.data) / (listMax b.data - listMin b.data) ≤ 1 :=
        (div_le_one hd).mpr (sub_le_sub_right (le_listMax hx) _)
      have hclip : clip 0 1 ((x - listMin b.data) / (listMax b.data - listMin b.data)) =
          (x - listMin b.data) / (listMax b.data - listMin b.data) := by
        rw [clip, max_eq_right h0, min_eq_right h1]
      rw [hclip, div_mul_cancel₀ _ hd.ne.symm, sub_add_cancel,
        castBack_repr (hrepr x hx)]
    · have hle : listMax b.data = listMin b.data := by
        obtain ⟨y, hy⟩ := List.exists_mem_of_ne_nil b.data hne
        exact le_antisymm (not_lt.mp hlt) (le_trans (listMin_le hy) (le_listMax hy))
      simp only [adjustedOf, linearBranch, if_neg hlt, List.map_map]
      refine map_eq_self_of fun x hx => ?_
      simp only [Function.comp_apply]
      have hx1 : x = listMin b.data :=
        le_antisymm (by rw [← hle]; exact le_listMax hx) (listMin_le hx)
      rw [hle, sub_self, mul_zero, zero_add, ← hx1, castBack_repr (hrepr x hx)]
  simp only [adjustContrast, hdata]

/-- Claim C10: on a buffer with a non-degenerate range and any gamma
exponent g at least 0, every sample produced by the gamma branch before
the final dtype cast stays within the input range [min, max]: the
normalized value lies in [0,1], so its g-th power does too, even with no
explicit clip. -/
theorem c10_gamma_range_bound (spline : List (ℝ × ℝ) → ℝ → ℝ) (b : ImageBuffer)
    (g : ℝ) (hlt : listMin b.data < listMax b.data) (hg : 0 ≤ g) :
    ∀ v ∈ adjustedOf spline b (CurveMethod.gamma g),
      listMin b.data ≤ v ∧ v ≤ listMax b.data := by
  intro v hv
  simp only [adjustedOf, gammaBranch, if_pos (gt_iff_lt.mpr hlt), List.map_map,
    List.mem_map] at hv
  obtain ⟨x, hx, rfl⟩ := hv
  simp only [Function.comp_apply]
  have hd : (0 : ℝ) < listMax b.data - listMin b.data := sub_pos.mpr hlt
  have h0 : 0 ≤ (x - listMin b.data) / (listMax b.data - listMin b.data) :=
    div_nonneg (sub_nonneg.mpr (listMin_le hx)) hd.le
  have h1 : (x - listMin b.data) / (listMax b.data - listMin b.data) ≤ 1 :=
    (div_le_one hd).mpr (sub_le_sub_right (le_listMax hx) _)
  have hr0 : 0 ≤ Real.rpow ((x - listMin b.data) / (listMax b.data - listMin b.data)) g :=
    Real.rpow_nonneg h0 g
  have hr1 : Real.rpow ((x - listMin b.data) / (listMax b.data - listMin b.data)) g ≤ 1 :=
    Real.rpow_le_one h0 h1 hg
  constructor
  · nlinarith
  · nlinarith

theorem chunks3_flatten : ∀ l : List ℕ, (chunks3 l).flatten = l
  | [] => rfl
  | [_] => rfl
  | [_, _] => rfl
  | a :: b :: c :: rest => by
    simp only [chunks3, List.flatten_cons, chunks3_flatten rest, List.cons_append,
      List.nil_append]

theorem chunks3_ne_nil : ∀ l : List ℕ, ∀ ch ∈ chunks3 l, ch ≠ []
  | [], ch, h => by simp [chunks3] at h
  | [a], ch, h => by
    simp only [chunks3, List.mem_singleton] at h
    simp [h]
  | [a, b], ch, h => by
    simp only [chunks3, List.mem_singleton] at h
    simp [h]
  | a :: b :: c :: rest, ch, h => by
    simp only [chunks3, List.mem_cons] at h
    rcases h with rfl | h
    · simp
    · exact chunks3_ne_nil rest ch h

theorem bgr2ycrcb_length : ∀ p : List ℕ, (bgr2ycrcb p).length = p.length
  | [] => rfl
  | [_] => rfl
  | [_, _] => rfl
  | [_, _, _] => rfl
  | _ :: _ :: _ :: _ :: _ => rfl

theorem ycrcb2bgr_length : ∀ p : List ℕ, (ycrcb2bgr p).length = p.length
  | [] => rfl
  | [_] => rfl
  | [_, _] => rfl
  | [_, _, _] => rfl
  | _ :: _ :: _ :: _ :: _ => rfl

theorem flatten_map_length_eq {f : List ℕ → List ℕ}
    (hf : ∀ p, (f p).length = p.length) :
    ∀ L : List (List ℕ), ((L.map f).flatten).length = L.flatten.length
  | [] => rfl
  | p :: ps => by
    simp only [List.map_cons, List.flatten_cons, List.length_append, hf p,
      flatten_map_length_eq hf ps]

theorem zip_replace_flatten_length :
    ∀ (ys : List ℕ) (ps : List (List ℕ)), ys.length = ps.length →
      (∀ p ∈ ps, p ≠ []) →
      ((List.zipWith (fun yv p => yv :: List.tail p) ys ps).flatten).length =
        ps.flatten.length
  | [], [], _, _ => rfl
  | [], _ :: _, h, _ => by simp at h
  | _ :: _, [], h, _ => by simp at h
  | y :: ys, p :: ps, h, hne => by
    have hp : p ≠ [] := hne p (List.mem_cons_self _ _)
    have hlen : (y :: p.tail).length = p.length := by
      cases p with
      | nil => exact absurd rfl hp
      | cons q qs => simp
    simp only [List.zipWith_cons_cons, List.flatten_cons, List.length_append, hlen,
      zip_replace_flatten_length ys ps (by simpa using h)
        (fun q hq => hne q (List.mem_cons_of_mem _ hq))]

theorem equalizeHist_length (l : List ℕ) : (equalizeHist l).length = l.length := by
  simp [equalizeHist]


theorem equalizeColor_length (data : List ℝ) :
    (equalizeColor data).length = data.length := by
  simp only [equalizeColor]
  have hne : ∀ p ∈ (chunks3 (data.map (norm8 (listMin data) (listMax data)))).map bgr2ycrcb,
      p ≠ [] := by
    intro p hp
    obtain ⟨q, hq, rfl⟩ := List.mem_map.mp hp
    have hq0 := chunks3_ne_nil _ q hq
    intro hcon
    apply hq0
    have hlen := bgr2ycrcb_length q
    rw [hcon] at hlen
    exact List.eq_nil_of_length_eq_zero hlen.symm
  have hylen :
      (equalizeHist (((chunks3 (data.map (norm8 (listMin data) (listMax data)))).map
        bgr2ycrcb).map (fun p => p.headD 0))).length =
      ((chunks3 (data.map (norm8 (listMin data) (listMax data)))).map bgr2ycrcb).length := by
    rw [equalizeHist_length, List.length_map]
  rw [List.length_map, flatten_map_length_eq ycrcb2bgr_length,
    zip_replace_flatten_length _ _ hylen hne,
    flatten_map_length_eq bgr2ycrcb_length, chunks3_flatten, List.length_map]

/-- Claim C3: for every non-empty buffer and every supported method —
linear, sigmoid, gamma, equalize (single-channel or three-channel) or
cubic spline — the output of `adjust_contrast` keeps the same sample
dtype, its array shape and its sample count. -/
theorem c3_dtype_shape_preserved (spline : List (ℝ × ℝ) → ℝ → ℝ)
    (b : ImageBuffer) (m : CurveMethod) (_hne : b.data ≠ []) :
    (adjustContrast spline b m).dtype = b.dtype ∧
    (adjustContrast spline b m).shape = b.shape ∧
    (adjustContrast spline b m).data.length = b.data.length := by
  refine ⟨rfl, rfl, ?_⟩
  simp only [adjustContrast, List.length_map]
  cases m with
  | linear a β =>
    simp only [adjustedOf, linearBranch, List.length_map]
    split <;> simp
  | sigmoid gain cutoff =>
    simp only [adjustedOf, sigmoidBranch, List.length_map]
    split <;> simp
  | gamma g =>
    simp only [adjustedOf, gammaBranch, List.length_map]
    split <;> simp
  | cubicSpline pts =>
    simp only [adjustedOf, cubicSplineBranch, List.length_map]
    split <;> simp
  | equalize =>
    simp only [adjustedOf]
    split
    · simp only [equalizeGray, List.length_map, equalizeHist_length]
    · exact equalizeColor_length b.data

/-- A trivial stand-in interpolator used to instantiate witnesses. -/
noncomputable def splineZero : List (ℝ × ℝ) → ℝ → ℝ := fun _ _ => 0

/-- A concrete 1 x 2 grayscale uint8 buffer. -/
noncomputable def bufGray : ImageBuffer := ⟨.uint8, false, 1, 2, 1, [0, 1]⟩

/-- A concrete constant uint8 buffer (every sample 3). -/
noncomputable def bufConst : ImageBuffer := ⟨.uint8, false, 1, 2, 1, [3, 3]⟩

/-- A concrete float buffer with samples 0 and 2. -/
noncomputable def bufFloat : ImageBuffer := ⟨.float, false, 1, 2, 1, [0, 2]⟩

theorem c3_witness :
    bufGray.data ≠ [] ∧
    ((adjustContrast splineZero bufGray .equalize).dtype = bufGray.dtype ∧
     (adjustContrast splineZero bufGray .equalize).shape = bufGray.shape ∧
     (adjustContrast splineZero bufGray .equalize).data.length = bufGray.data.length) :=
  ⟨by simp [bufGray],
   c3_dtype_shape_preserved splineZero bufGray .equalize (by simp [bufGray])⟩

theorem c5_witness :
    bufConst.data ≠ [] ∧ (∀ x ∈ bufConst.data, x = 3) ∧
    reprDtype bufConst.dtype 3 ∧
    (CurveMethod.linear 1.5 0 ≠ CurveMethod.equalize) ∧
    adjustContrast splineZero bufConst (CurveMethod.linear 1.5 0) = bufConst := by
  have h1 : bufConst.data ≠ [] := by simp [bufConst]
  have h2 : ∀ x ∈ bufConst.data, x = (3 : ℝ) := by
    intro x hx
    simp only [bufConst, List.mem_cons, List.not_mem_nil, or_false] at hx
    rcases hx with rfl | rfl <;> rfl
  have h3 : reprDtype bufConst.dtype 3 := ⟨3, by norm_num, by norm_num⟩
  have h4 : CurveMethod.linear 1.5 0 ≠ CurveMethod.equalize := by
    intro h
    cases h
  exact ⟨h1, h2, h3, h4, c5_degenerate_noop splineZero bufConst 3 _ h1 h2 h3 h4⟩

theorem c8_witness :
    bufFloat.data ≠ [] ∧ (∀ v ∈ bufFloat.data, reprDtype bufFloat.dtype v) ∧
    adjustContrast splineZero bufFloat (CurveMethod.linear 1 0) = bufFloat := by
  have h1 : bufFloat.data ≠ [] := by simp [bufFloat]
  have h2 : ∀ v ∈ bufFloat.data, reprDtype bufFloat.dtype v := fun v _ => trivial
  exact ⟨h1, h2, c8_linear_identity splineZero bufFloat h1 h2⟩

theorem c10_witness :
    listMin bufFloat.data < listMax bufFloat.data ∧ (0 : ℝ) ≤ 1 ∧
    ∀ v ∈ adjustedOf splineZero bufFloat (CurveMethod.gamma 1),
      listMin bufFloat.data ≤ v ∧ v ≤ listMax bufFloat.data := by
  have h : listMin bufFloat.data < listMax bufFloat.data := by
    simp only [bufFloat, listMin, listMax, List.foldl_cons, List.foldl_nil]
    norm_num
  exact ⟨h, by norm_num, c10_gamma_range_bound splineZero bufFloat 1 h (by norm_num)⟩
